import Mathlib

/-
Verification of the characteristic-class module
(src/src/sage/manifolds/differentiable/char_class.py).

The module is a thin orchestration layer over a symbolic engine.  We embed
it shallowly:

* a symbolic single-variable function analytic at 0 is represented by the
  stream of its Taylor coefficients at 0 (a function from naturals to
  rationals);
* the symbolic-engine operations used by the module (substitution of the
  variable by its square or its negation, formal square root, truncated
  Taylor expansion) are modelled from the spec, since the symbolic engine
  is repository code outside the excerpt under review;
* the stateful per-connection cache of `get_form` is modelled by explicit
  state passing;
* matrices of differential forms become matrices over a commutative ring
  (the mixed-form algebra is consumed only through its ring operations,
  trace, determinant and Pfaffian).
-/

namespace CharClassModel

/-- Modelled from the spec: the external vector bundle object exposes a
field type which is real, complex, or neither (the string
`neither_real_nor_complex` in the source). -/
inductive FieldT
  | real
  | complex
  | neither
deriving DecidableEq

/-- Modelled from the spec: the data the module reads off the external
vector bundle object: field type, rank, base-space dimension, and the
names used for display. -/
structure VectorBundle where
  fieldT : FieldT
  rank : ℕ
  baseDim : ℕ
  name : String
  latexName : String
deriving DecidableEq

/-- Modelled from the spec: substitution of the default variable by the
square of a (complex) variable, `f.subs(x -> y^2)`, on Taylor-coefficient
streams: coefficient `2*m` of the result is coefficient `m` of `f`, odd
coefficients vanish. -/
def subSquare (f : ℕ → ℚ) : ℕ → ℚ :=
  fun n => if n % 2 = 0 then f (n / 2) else 0

/-- Modelled from the spec: substitution of the default variable by its
negation, `f.subs(x -> -x)`, on Taylor-coefficient streams. -/
def subNeg (f : ℕ → ℚ) : ℕ → ℚ :=
  fun n => (-1) ^ n * f n

/-- Modelled from the spec: the list of the first `n+1` coefficients of the
formal square root of a series with constant term 1 (the expansion is taken
in a complex variable, so no absolute-value branch arises).  Entry `0` is 1
and entry `m+1` is determined by the recurrence making the Cauchy square of
the list reproduce `f`. -/
def sqrtCoeffs (f : ℕ → ℚ) : ℕ → List ℚ
  | 0 => [1]
  | n + 1 =>
    let prev := sqrtCoeffs f n
    prev ++ [(f (n + 1) -
      ∑ k ∈ Finset.range n, prev.getD (k + 1) 0 * prev.getD (n - k) 0) / 2]

/-- Modelled from the spec: coefficient `n` of the formal square root
`f.sqrt()` of a Taylor-coefficient stream. -/
def seriesSqrt (f : ℕ → ℚ) (n : ℕ) : ℚ :=
  (sqrtCoeffs f n).getD n 0

/-- Modelled from the spec: `func.taylor(var, 0, order).coefficients(sparse=False)`
on Taylor-coefficient streams: the dense list of the first `order+1`
Taylor coefficients at 0, coefficient 0 first. -/
def taylorCoeffs (f : ℕ → ℚ) (order : ℕ) : List ℚ :=
  (List.range (order + 1)).map f

/-- Cauchy product coefficient: the degree-`n` coefficient of the product of
the series `f` and `g`. -/
def cauchyMul (f g : ℕ → ℚ) (n : ℕ) : ℚ :=
  ∑ k ∈ Finset.range (n + 1), f k * g (n - k)

/-- The errors raised by the module: Python ValueError, TypeError and
NotImplementedError. -/
inductive SageError
  | valueError : String → SageError
  | typeError : String → SageError
  | notImplementedError : String → SageError
deriving DecidableEq

/-- The characteristic-class object: the fields stored by
`CharClass.__init__` (the base space is kept only through its dimension;
the per-connection cache `_mixed_forms` is modelled as explicit state). -/
structure CharClass where
  name : Option String
  latexName : Option String
  func : ℕ → ℚ
  classType : String
  fieldT : FieldT
  rank : ℕ
  baseDim : ℕ
  vbName : String
  vbLatexName : String
  coeffList : List ℚ

/-- Embedding of `CharClass._get_coeff_list`: the truncation order is
`floor(dim / 2)`; on a real bundle the function is transformed according to
the class type (substitute the squared variable and halve for additive,
substitute the squared variable and take the square root for
multiplicative, project onto the odd part for Pfaffian), on any other
bundle the variable is just renamed; then the Taylor coefficients up to the
truncation order are extracted.  The fall-through branch for a class type
outside the three admitted ones is unreachable after the validation done by
the constructor. -/
def getCoeffList (fieldT : FieldT) (classType : String) (func : ℕ → ℚ)
    (dim : ℕ) : List ℚ :=
  let powRange := dim / 2
  let g : ℕ → ℚ :=
    if fieldT = FieldT.real then
      if classType = "additive" then fun n => subSquare func n / 2
      else if classType = "multiplicative" then seriesSqrt (subSquare func)
      else if classType = "Pfaffian" then fun n => (func n - subNeg func n) / 2
      else fun _ => 0
    else func
  taylorCoeffs g powRange

/-- Embedding of `CharClass.__init__`: validate the field type, the class
type and the Pfaffian constraints, then store the fields and compute the
coefficient list eagerly. -/
def mkCharClass (vbundle : VectorBundle) (func : ℕ → ℚ) (classType : String)
    (name latexName : Option String) : Except SageError CharClass :=
  if vbundle.fieldT = FieldT.neither then
    Except.error (SageError.valueError
      ("the vector bundle must either be real or complex"))
  else if ¬ (classType = "additive" ∨ classType = "multiplicative" ∨
      classType = "Pfaffian") then
    Except.error (SageError.valueError
      ("the argument class_type must either be additive, multiplicative or Pfaffian"))
  else if classType = "Pfaffian" ∧
      ¬ (vbundle.fieldT = FieldT.real ∧ vbundle.rank % 2 = 0) then
    Except.error (SageError.valueError
      ("Pfaffian classes can only be defined for real vector bundles of even rank"))
  else
    Except.ok
      { name := name
        latexName := match latexName with
          | none => name
          | some l => some l
        func := func
        classType := classType
        fieldT := vbundle.fieldT
        rank := vbundle.rank
        baseDim := vbundle.baseDim
        vbName := vbundle.name
        vbLatexName := vbundle.latexName
        coeffList := getCoeffList vbundle.fieldT classType func vbundle.baseDim }

/-- The series named by the spec for each case of claim C1: the defining
function itself on a complex bundle, `f` composed with the squared variable
and halved for a real additive class, the formal square root of `f`
composed with the squared variable for a real multiplicative class, and the
odd part of `f` for a Pfaffian class. -/
def claimSeries (fieldT : FieldT) (classType : String) (f : ℕ → ℚ) : ℕ → ℚ :=
  if fieldT = FieldT.complex then f
  else if classType = "Pfaffian" then fun n => if n % 2 = 1 then f n else 0
  else if classType = "additive" then fun n => if 2 ∣ n then f (n / 2) / 2 else 0
  else seriesSqrt (fun n => if 2 ∣ n then f (n / 2) else 0)

/-- A local frame, consumed only through its identity and the domain it
trivializes the bundle over; domains are modelled extensionally as finite
sets with their decidable subset relation, which is all that
`_get_min_frames` uses. -/
structure Frame where
  index : ℕ
  domain : Finset ℕ
deriving DecidableEq

/-- Inner loop of `CharClass._get_min_frames` over the already-selected
frames: scan them in order; on the first one whose domain contains the
candidate's domain, break (first component `true`); otherwise collect into
the second component the scanned frames whose domain is contained in the
candidate's (the `redund_frame_set`). -/
def frameScan (f : Frame) : List Frame → Bool × List Frame
  | [] => (false, [])
  | o :: rest =>
    if f.domain ⊆ o.domain then (true, [])
    else if o.domain ⊆ f.domain then
      ((frameScan f rest).1, o :: (frameScan f rest).2)
    else frameScan f rest

/-- Body of the outer loop of `CharClass._get_min_frames`: run the scan;
remove the redundant frames from the selection (Python
`difference_update`, applied whether or not the scan broke out), and append
the candidate exactly when the scan completed without breaking. -/
def insertMinFrame (sel : List Frame) (f : Frame) : List Frame :=
  if (frameScan f sel).1 then
    sel.filter (fun o => decide (o ∉ (frameScan f sel).2))
  else
    sel.filter (fun o => decide (o ∉ (frameScan f sel).2)) ++ [f]

/-- Embedding of `CharClass._get_min_frames`: fold the loop body over the
input frames, starting from the empty selection.  The Python selection is a
set iterated in unspecified order; here it is a list iterated in insertion
order (the properties proved below are order-independent). -/
def getMinFrames (frameList : List Frame) : List Frame :=
  frameList.foldl insertMinFrame []

/-- Embedding of `CharClass._normalize_matrix` over a field containing
distinguished elements `piV` and `IV` standing for the symbolic constants
pi and i: the factor is `1/(2*piV)`, divided once more by `IV` unless the
class is Pfaffian, and every entry is multiplied by it (the input matrix is
not mutated: the function is pure). -/
def normalizeMatrix {R : Type} [Field R] {n : ℕ} (piV IV : R)
    (classType : String) (cmatrix : Matrix (Fin n) (Fin n) R) :
    Matrix (Fin n) (Fin n) R :=
  let fac : R := 1 / (2 * piV)
  let fac := if classType ≠ "Pfaffian" then fac / IV else fac
  fac • cmatrix

/-- The iteratively built list of matrix powers of
`CharClass._insert_in_polynomial`: start from the identity and append the
product of the matrix with the previously appended entry (`power_list[pow]`
with `pow` the index of the last entry), performing one matrix
multiplication per step. -/
def buildPowers {R : Type} [CommRing R] {n : ℕ}
    (cmatrix : Matrix (Fin n) (Fin n) R) : ℕ → List (Matrix (Fin n) (Fin n) R)
  | 0 => [1]
  | d + 1 =>
    let pl := buildPowers cmatrix d
    pl ++ [cmatrix * pl.getD d 1]

/-- Embedding of `CharClass._insert_in_polynomial`: build the matrix powers
up to the degree of the coefficient list and sum the powers weighted by the
coefficients. -/
def insertInPolynomial {R : Type} [CommRing R] {n : ℕ} (coeffList : List R)
    (cmatrix : Matrix (Fin n) (Fin n) R) : Matrix (Fin n) (Fin n) R :=
  let pl := buildPowers cmatrix (coeffList.length - 1)
  ∑ k ∈ Finset.range coeffList.length, coeffList.getD k 0 • pl.getD k 1

/-- Modelled from the spec: the external Pfaffian reduction on a square
matrix (the polynomial invariant of a skew-symmetric matrix whose square is
the determinant), given by the standard averaged sum over permutations; it
is consumed opaquely by `get_form`, no claim depends on its value. -/
def pfaffianModel {R : Type} [Field R] {r : ℕ}
    (M : Matrix (Fin r) (Fin r) R) : R :=
  ((2 ^ (r / 2) * Nat.factorial (r / 2) : ℕ) : R)⁻¹ *
    ∑ σ : Equiv.Perm (Fin r),
      ((Equiv.Perm.sign σ : ℤ) : R) *
        ∏ i : Fin (r / 2),
          M (σ ⟨2 * i.1, by have := i.2; omega⟩)
            (σ ⟨2 * i.1 + 1, by have := i.2; omega⟩)

/-- The kind of object passed to `get_form` as connection: the isinstance
test accepts affine and bundle connections and rejects everything else. -/
inductive ConnKind
  | affine
  | bundle
  | other
deriving DecidableEq

/-- A connection, consumed through its identity (Python object identity,
modelled by a numeric id), its isinstance kind, its display names, the
frames over which its coefficients are known, and its curvature forms,
an external collaborator indexed by two indices and a frame. -/
structure Connection (R : Type) where
  id : ℕ
  kind : ConnKind
  name : Option String
  latexName : Option String
  coefficients : List Frame
  curvatureForm : ℕ → ℕ → Frame → R

/-- One homogeneous component of a mixed form: its names and the
identically-zero marker `_is_zero`. -/
structure Component where
  name : Option String
  latexName : Option String
  is_zero : Bool
deriving DecidableEq

/-- A mixed differential form as consumed by the module: its names, its
list of homogeneous components indexed by cohomological degree 0..dim, and
the list of restrictions set on it by `set_restriction` (one per frame
processed by the computation loop; the glueing itself is done by the
external mixed-form collaborator). -/
structure MixedForm (R : Type) where
  name : Option String
  latexName : Option String
  comps : List Component
  restrictions : List R
deriving DecidableEq

/-- The degree stride of `get_form` (`deg_dist` in the source): the rank
for a Pfaffian class, else 4 on a real bundle, 2 on a complex bundle, and 1
in the defensive fall-through branch. -/
def degDistOf (cc : CharClass) : ℕ :=
  if cc.classType = "Pfaffian" then cc.rank
  else if cc.fieldT = FieldT.real then 4
  else if cc.fieldT = FieldT.complex then 2
  else 1

/-- The name given to a non-zero homogeneous component of degree `k`: if
the class is named, build the name from the class name, the quotient of the
degree by the stride, the bundle name and the connection name; if the class
is unnamed the running name variable of the loop is left as it was. -/
def compNewName (cc : CharClass) (conName : Option String) (k : ℕ)
    (curName : Option String) : Option String :=
  match cc.name with
  | some nm => some (nm ++ "_" ++ toString (k / degDistOf cc) ++ "(" ++
      cc.vbName ++ (match conName with
        | some cn => ", " ++ cn
        | none => "") ++ ")")
  | none => curName

/-- The LaTeX name given to a non-zero homogeneous component of degree
`k`, parallel to `compNewName`. -/
def compNewLatex (cc : CharClass) (conLatex : Option String) (k : ℕ)
    (curLatex : Option String) : Option String :=
  match cc.latexName with
  | some lm => some (lm ++ "_\x7b" ++ toString (k / degDistOf cc) ++
      "\x7d(" ++ cc.vbLatexName ++ (match conLatex with
        | some cl => ", " ++ cl
        | none => "") ++ ")")
  | none => curLatex

/-- The component-naming loop of `get_form`: walk the degrees; a degree
that is not a multiple of the stride, or degree 0 of a Pfaffian class, gets
the name `zero` and the identically-zero mark; other degrees get a name
built from the class name (the running name variables are threaded because
the source only reassigns them when the class has a name). -/
def buildComps (cc : CharClass) (conName conLatex : Option String) :
    List ℕ → Option String → Option String → List Component
  | [], _, _ => []
  | k :: ks, curName, curLatex =>
    if k % degDistOf cc ≠ 0 ∨ (cc.classType = "Pfaffian" ∧ k = 0) then
      { name := some ("zero"), latexName := some ("0"), is_zero := true } ::
        buildComps cc conName conLatex ks curName curLatex
    else
      { name := compNewName cc conName k curName,
        latexName := compNewLatex cc conLatex k curLatex,
        is_zero := false } ::
        buildComps cc conName conLatex ks
          (compNewName cc conName k curName)
          (compNewLatex cc conLatex k curLatex)

/-- The computation performed by `get_form` once curvature matrices are at
hand: build the mixed form's names, mark and name its homogeneous
components degree by degree, then for each frame normalize the curvature
matrix, insert it into the polynomial, reduce by trace, determinant or
Pfaffian according to the class type, and record the resulting restriction
(the final branch is unreachable for the class types admitted at
construction). -/
def computeForm {R : Type} [Field R] (piV IV : R) (cc : CharClass)
    (con : Connection R)
    (cmatrices : List (Frame × Matrix (Fin cc.rank) (Fin cc.rank) R)) :
    MixedForm R :=
  let name : Option String := match cc.name, con.name with
    | some nm, some cn => some (nm ++ "(" ++ cc.vbName ++ ", " ++ cn ++ ")")
    | nm, _ => nm
  let latexName : Option String := match cc.latexName, con.latexName with
    | some lm, some cl => some (lm ++ "(" ++ cc.vbLatexName ++ ", " ++ cl ++ ")")
    | lm, _ => lm
  let comps := buildComps cc con.name con.latexName
    (List.range (cc.baseDim + 1)) name latexName
  let restrictions := cmatrices.map (fun fc =>
    let ncmatrix := normalizeMatrix piV IV cc.classType fc.2
    let rmatrix := insertInPolynomial (cc.coeffList.map (fun q => (q : R))) ncmatrix
    if cc.classType = "additive" then rmatrix.trace
    else if cc.classType = "multiplicative" then rmatrix.det
    else if cc.classType = "Pfaffian" then pfaffianModel rmatrix
    else 0)
  { name := name, latexName := latexName, comps := comps,
    restrictions := restrictions }

/-- Lookup in the per-connection cache `_mixed_forms`, keyed by connection
identity. -/
def lookupMF {R : Type} : List (ℕ × MixedForm R) → ℕ → Option (MixedForm R)
  | [], _ => none
  | p :: rest, j => if p.1 = j then some p.2 else lookupMF rest j

/-- The curvature matrices derived from the connection when the caller
supplies none: one matrix of curvature forms per frame of a minimal
covering selection of the frames the connection knows. -/
def derivedCms {R : Type} (cc : CharClass) (con : Connection R) :
    List (Frame × Matrix (Fin cc.rank) (Fin cc.rank) R) :=
  (getMinFrames con.coefficients).map (fun frame =>
    (frame, Matrix.of (fun i j : Fin cc.rank =>
      con.curvatureForm i.1 j.1 frame)))

/-- Embedding of `CharClass.get_form`.  The mutable cache `_mixed_forms` is
passed in and returned explicitly.  Reject a connection that is neither
affine nor bundle; return the cached form unchanged on a cache hit;
otherwise obtain curvature matrices (refusing to derive them for a Pfaffian
class, else querying the connection over a minimal set of frames), compute
the form and cache it under the connection's identity. -/
def getForm {R : Type} [Field R] (piV IV : R) (cc : CharClass)
    (cache : List (ℕ × MixedForm R)) (con : Connection R)
    (cmatrices : Option (List (Frame × Matrix (Fin cc.rank) (Fin cc.rank) R))) :
    Except SageError (MixedForm R) × List (ℕ × MixedForm R) :=
  if ¬ (con.kind = ConnKind.affine ∨ con.kind = ConnKind.bundle) then
    (Except.error (SageError.typeError
      ("argument must be an affine connection on the manifold or bundle connection on the vector bundle")),
     cache)
  else
    match lookupMF cache con.id with
    | some res => (Except.ok res, cache)
    | none =>
      let cms : Except SageError
          (List (Frame × Matrix (Fin cc.rank) (Fin cc.rank) R)) :=
        match cmatrices with
        | some cm => Except.ok cm
        | none =>
          if cc.classType = "Pfaffian" then
            Except.error (SageError.notImplementedError
              ("At this stage, Pfaffian forms cannot be derived from (metric) connections. Please use the argument cmatrices to insert a dictionary of skew-symmetric curvature matrices by hand, instead."))
          else
            Except.ok (derivedCms cc con)
      match cms with
      | Except.error e => (Except.error e, cache)
      | Except.ok cm =>
        let res := computeForm piV IV cc con cm
        (Except.ok res, (con.id, res) :: cache)

/-- The Taylor-coefficient stream of the function 1 + x. -/
def funcW : ℕ → ℚ := fun n => if n ≤ 1 then 1 else 0

/-- A real vector bundle of rank 2 over a 4-dimensional base. -/
def vbW : VectorBundle :=
  { fieldT := FieldT.real, rank := 2, baseDim := 4,
    name := "E", latexName := "E" }

/-- The characteristic-class object produced by constructing the
multiplicative class of `funcW` on `vbW`. -/
def ccW : CharClass :=
  { name := some ("c")
    latexName := some ("c")
    func := funcW
    classType := "multiplicative"
    fieldT := FieldT.real
    rank := 2
    baseDim := 4
    vbName := "E"
    vbLatexName := "E"
    coeffList := getCoeffList FieldT.real "multiplicative" funcW 4 }

/-- The Taylor-coefficient stream of the function x + x^3. -/
def funcOdd : ℕ → ℚ := fun n => if n = 1 ∨ n = 3 then 1 else 0

/-- A real vector bundle of rank 2 over a 4-dimensional base used to refute
the full-dimension part of claim C5. -/
def vbOdd : VectorBundle :=
  { fieldT := FieldT.real, rank := 2, baseDim := 4,
    name := "TM", latexName := "TM" }

/-- The characteristic-class object produced by constructing the Pfaffian
class of `funcOdd` on `vbOdd`. -/
def ccOdd : CharClass :=
  { name := none
    latexName := none
    func := funcOdd
    classType := "Pfaffian"
    fieldT := FieldT.real
    rank := 2
    baseDim := 4
    vbName := "TM"
    vbLatexName := "TM"
    coeffList := getCoeffList FieldT.real "Pfaffian" funcOdd 4 }

/-- Pairwise incomparability of the selected frames: no frame's domain is
contained in another selected frame's domain. -/
def Incomp (sel : List Frame) : Prop :=
  ∀ g ∈ sel, ∀ h ∈ sel, g ≠ h → ¬ g.domain ⊆ h.domain

/-- The default component used with `List.getD`. -/
def defaultComp : Component :=
  { name := none, latexName := none, is_zero := false }

/-- The degree stride as the claim states it: the rank for a Pfaffian
class, 4 for a real non-Pfaffian class, 2 for a complex one. -/
def claimStride (cc : CharClass) : ℕ :=
  if cc.classType = "Pfaffian" then cc.rank
  else if cc.fieldT = FieldT.real then 4
  else 2

/-- An affine connection with one numeric identity and no coefficients,
used to instantiate the cache theorems. -/
def conA : Connection ℚ :=
  { id := 0, kind := ConnKind.affine, name := none, latexName := none,
    coefficients := [], curvatureForm := fun _ _ _ => 0 }

/-- An object that is neither an affine nor a bundle connection. -/
def conBad : Connection ℚ :=
  { id := 1, kind := ConnKind.other, name := none, latexName := none,
    coefficients := [], curvatureForm := fun _ _ _ => 0 }

/-- The mixed form computed for `ccOdd` under `conA` from an empty
curvature-matrix dictionary. -/
def mfOddW : MixedForm ℚ := computeForm 1 1 ccOdd conA []

/-- The mixed form computed for `ccW` under `conA` from an empty
curvature-matrix dictionary. -/
def mfCW : MixedForm ℚ := computeForm 1 1 ccW conA []

theorem sqrtCoeffs_length (f : ℕ → ℚ) (n : ℕ) :
    (sqrtCoeffs f n).length = n + 1 := by
  induction n with
  | zero => rfl
  | succ n ih => simp [sqrtCoeffs, ih]

theorem sqrtCoeffs_getD (f : ℕ → ℚ) {j n : ℕ} (h : j ≤ n) :
    (sqrtCoeffs f n).getD j 0 = seriesSqrt f j := by
  induction n with
  | zero =>
    interval_cases j
    rfl
  | succ n ih =>
    rcases Nat.lt_or_ge j (n + 1) with hj | hj
    · rw [show sqrtCoeffs f (n + 1) = sqrtCoeffs f n ++ [_] from rfl,
        List.getD_append _ _ _ _ (by rw [sqrtCoeffs_length]; exact hj)]
      exact ih (Nat.lt_succ_iff.mp hj)
    · have hj' : j = n + 1 := le_antisymm h hj
      subst hj'
      rfl

theorem seriesSqrt_zero (f : ℕ → ℚ) : seriesSqrt f 0 = 1 := rfl

theorem seriesSqrt_succ (f : ℕ → ℚ) (n : ℕ) :
    seriesSqrt f (n + 1) =
      (f (n + 1) -
        ∑ k ∈ Finset.range n, seriesSqrt f (k + 1) * seriesSqrt f (n - k)) / 2 := by
  show (sqrtCoeffs f n ++ [_]).getD (n + 1) 0 = _
  rw [List.getD_append_right _ _ _ _ (by rw [sqrtCoeffs_length])]
  rw [sqrtCoeffs_length]
  simp only [Nat.sub_self, List.getD_cons_zero]
  congr 2
  refine Finset.sum_congr rfl (fun k hk => ?_)
  have hk' : k < n := Finset.mem_range.mp hk
  rw [sqrtCoeffs_getD f (by omega), sqrtCoeffs_getD f (by omega)]

/-- The formal square root genuinely squares back to the original series:
for a series with constant coefficient 1, the Cauchy square of `seriesSqrt f`
is `f` in every degree.  This justifies reading `seriesSqrt` as the `sqrt`
the source applies. -/
theorem seriesSqrt_sq (f : ℕ → ℚ) (h : f 0 = 1) (n : ℕ) :
    cauchyMul (seriesSqrt f) (seriesSqrt f) n = f n := by
  cases n with
  | zero =>
    simp [cauchyMul, seriesSqrt_zero, h]
  | succ n =>
    unfold cauchyMul
    rw [Finset.sum_range_succ, Finset.sum_range_succ']
    simp only [Nat.succ_sub_succ, Nat.sub_self, Nat.sub_zero, seriesSqrt_zero]
    rw [seriesSqrt_succ]
    ring

/-- C1: for every constructible characteristic class, the coefficient list
computed at construction is the dense list of Taylor coefficients at 0, up
to the truncation order, of: the defining function itself on a complex
bundle; the function composed with the squared variable and halved for a
real additive class; the formal square root of the function composed with
the squared variable for a real multiplicative class; and the odd part of
the function for a Pfaffian class. -/
theorem coeff_list_matches_taylor (vbundle : VectorBundle) (func : ℕ → ℚ)
    (classType : String) (name latexName : Option String) (cc : CharClass)
    (h : mkCharClass vbundle func classType name latexName = Except.ok cc) :
    cc.coeffList =
      taylorCoeffs (claimSeries vbundle.fieldT classType func)
        (vbundle.baseDim / 2) := by
  unfold mkCharClass at h
  split_ifs at h with h1 h2 h3
  injection h with h4
  subst h4
  show getCoeffList vbundle.fieldT classType func vbundle.baseDim = _
  unfold getCoeffList taylorCoeffs
  cases hft : vbundle.fieldT with
  | neither => exact absurd hft h1
  | complex => simp [claimSeries]
  | real =>
    rcases h2 with hct | hct | hct <;> subst hct <;>
      simp only [claimSeries, if_true, if_false, reduceIte] <;> congr 1 <;> funext n
    · show subSquare func n / 2 = if 2 ∣ n then func (n / 2) / 2 else 0
      unfold subSquare
      by_cases hm : n % 2 = 0
      · rw [if_pos hm, if_pos (Nat.dvd_iff_mod_eq_zero.mpr hm)]
      · rw [if_neg hm, if_neg (fun hd => hm (Nat.dvd_iff_mod_eq_zero.mp hd)),
          zero_div]
    · show seriesSqrt (subSquare func) n = _
      congr 1
      funext m
      unfold subSquare
      by_cases hm : m % 2 = 0
      · rw [if_pos hm, if_pos (Nat.dvd_iff_mod_eq_zero.mpr hm)]
      · rw [if_neg hm, if_neg (fun hd => hm (Nat.dvd_iff_mod_eq_zero.mp hd))]
    · show (func n - subNeg func n) / 2 = if n % 2 = 1 then func n else 0
      unfold subNeg
      rcases Nat.even_or_odd n with hn | hn
      · rw [hn.neg_one_pow,
          if_neg (by rw [Nat.even_iff] at hn; omega)]
        ring
      · rw [hn.neg_one_pow, if_pos (Nat.odd_iff.mp hn)]
        ring

theorem coeff_list_matches_taylor_witness :
    mkCharClass vbW funcW "multiplicative" (some ("c")) none = Except.ok ccW ∧
    ccW.coeffList =
      taylorCoeffs (claimSeries vbW.fieldT "multiplicative" funcW)
        (vbW.baseDim / 2) := by
  have h : mkCharClass vbW funcW "multiplicative" (some ("c")) none =
      Except.ok ccW := rfl
  exact ⟨h, coeff_list_matches_taylor vbW funcW "multiplicative"
    (some ("c")) none ccW h⟩

/-- C5 counterexample: on a 4-dimensional base, the Pfaffian class of
x + x^3 stores the coefficients truncated at order `floor(dim/2) = 2`,
namely `[0, 1, 0]`; deriving the sequence with the manifold's full
dimension 4, as the claim states for Pfaffian classes, would give the
different list `[0, 1, 0, 1, 0]`. -/
theorem pfaffian_truncation_counterexample :
    (mkCharClass vbOdd funcOdd "Pfaffian" none none).map
        (fun cc => cc.coeffList) = Except.ok [0, 1, 0] ∧
    taylorCoeffs (claimSeries FieldT.real "Pfaffian" funcOdd) vbOdd.baseDim =
      [0, 1, 0, 1, 0] ∧
    ([0, 1, 0] : List ℚ) ≠ [0, 1, 0, 1, 0] := by
  refine ⟨?_, ?_, by simp⟩
  · simp [mkCharClass, vbOdd, getCoeffList, taylorCoeffs, funcOdd, subNeg,
      List.range_succ, Except.map]
  · simp [claimSeries, vbOdd, taylorCoeffs, funcOdd, List.range_succ]

/-- C5 (amended): the Taylor expansion is truncated at order
`floor(manifold_dimension / 2)` for every class type: the stored
coefficient list of any constructible class has length
`floor(dim/2) + 1`, for Pfaffian classes as well. -/
theorem coeff_list_truncation_order (vbundle : VectorBundle) (func : ℕ → ℚ)
    (classType : String) (name latexName : Option String) (cc : CharClass)
    (h : mkCharClass vbundle func classType name latexName = Except.ok cc) :
    cc.coeffList.length = vbundle.baseDim / 2 + 1 := by
  unfold mkCharClass at h
  split_ifs at h with h1 h2 h3
  injection h with h4
  subst h4
  show (getCoeffList vbundle.fieldT classType func vbundle.baseDim).length = _
  unfold getCoeffList taylorCoeffs
  simp

theorem coeff_list_truncation_order_witness :
    mkCharClass vbOdd funcOdd "Pfaffian" none none = Except.ok ccOdd ∧
    ccOdd.coeffList.length = vbOdd.baseDim / 2 + 1 := by
  have h : mkCharClass vbOdd funcOdd "Pfaffian" none none =
      Except.ok ccOdd := rfl
  exact ⟨h, coeff_list_truncation_order vbOdd funcOdd "Pfaffian"
    none none ccOdd h⟩

/-- C6: construction succeeds exactly on the valid combinations: the
bundle's field type is real or complex, the class type is one of the three
admitted strings, and a Pfaffian class moreover requires a real field and
even rank; every failure is a ValueError (validation error). -/
theorem mk_char_class_validation (vbundle : VectorBundle) (func : ℕ → ℚ)
    (classType : String) (name latexName : Option String) :
    ((∃ cc, mkCharClass vbundle func classType name latexName = Except.ok cc)
      ↔ (vbundle.fieldT ≠ FieldT.neither ∧
         (classType = "additive" ∨ classType = "multiplicative" ∨
           classType = "Pfaffian") ∧
         (classType = "Pfaffian" →
           vbundle.fieldT = FieldT.real ∧ vbundle.rank % 2 = 0))) ∧
    (∀ e, mkCharClass vbundle func classType name latexName = Except.error e →
      ∃ msg, e = SageError.valueError msg) := by
  unfold mkCharClass
  split_ifs with h1 h2 h3
  · refine ⟨⟨fun hcc => ?_, fun hv => absurd h1 hv.1⟩, fun e he => ?_⟩
    · obtain ⟨cc, hcc⟩ := hcc
      exact hcc.elim
    · injection he with h
      exact ⟨_, h.symm⟩
  · refine ⟨⟨fun hcc => ?_, fun hv => absurd (hv.2.2 h3.1) h3.2⟩,
      fun e he => ?_⟩
    · obtain ⟨cc, hcc⟩ := hcc
      exact hcc.elim
    · injection he with h
      exact ⟨_, h.symm⟩
  · refine ⟨⟨fun _ => ⟨h1, h2, fun hpf => ?_⟩, fun _ => ⟨_, rfl⟩⟩,
      fun e he => ?_⟩
    · by_contra hne
      exact h3 ⟨hpf, hne⟩
    · simp at he
  · refine ⟨⟨fun hcc => ?_, fun hv => absurd hv.2.1 h2⟩, fun e he => ?_⟩
    · obtain ⟨cc, hcc⟩ := hcc
      exact hcc.elim
    · injection he with h
      exact ⟨_, h.symm⟩

theorem mk_char_class_validation_witness :
    ∃ cc, mkCharClass vbOdd funcOdd "Pfaffian" none none = Except.ok cc :=
  (mk_char_class_validation vbOdd funcOdd "Pfaffian" none none).1.mpr
    (by decide)

theorem frameScan_redund_mem (f : Frame) (sel : List Frame) :
    ∀ o ∈ (frameScan f sel).2, o ∈ sel ∧ o.domain ⊆ f.domain := by
  induction sel with
  | nil =>
    intro o ho
    simp [frameScan] at ho
  | cons a rest ih =>
    intro o ho
    unfold frameScan at ho
    split_ifs at ho with h1 h2
    · simp at ho
    · rcases List.mem_cons.mp ho with rfl | ho'
      · exact ⟨List.mem_cons_self _ _, h2⟩
      · obtain ⟨hm, hs⟩ := ih o ho'
        exact ⟨List.mem_cons_of_mem _ hm, hs⟩
    · obtain ⟨hm, hs⟩ := ih o ho
      exact ⟨List.mem_cons_of_mem _ hm, hs⟩

theorem frameScan_false (f : Frame) (sel : List Frame)
    (hb : (frameScan f sel).1 = false) :
    ∀ o ∈ sel, ¬ f.domain ⊆ o.domain ∧
      (o.domain ⊆ f.domain → o ∈ (frameScan f sel).2) := by
  induction sel with
  | nil =>
    intro o ho
    simp at ho
  | cons a rest ih =>
    intro o ho
    unfold frameScan at hb ⊢
    split_ifs at hb ⊢ with h1 h2
    · rcases List.mem_cons.mp ho with rfl | ho'
      · exact ⟨h1, fun _ => List.mem_cons_self _ _⟩
      · obtain ⟨hn, hm⟩ := ih hb o ho'
        exact ⟨hn, fun hs => List.mem_cons_of_mem _ (hm hs)⟩
    · rcases List.mem_cons.mp ho with rfl | ho'
      · exact ⟨h1, fun hs => absurd hs h2⟩
      · exact ih hb o ho'

theorem frameScan_true (f : Frame) (sel : List Frame) (hnd : sel.Nodup)
    (hb : (frameScan f sel).1 = true) :
    ∃ o ∈ sel, f.domain ⊆ o.domain ∧ o ∉ (frameScan f sel).2 := by
  induction sel with
  | nil =>
    simp [frameScan] at hb
  | cons a rest ih =>
    unfold frameScan at hb ⊢
    split_ifs at hb ⊢ with h1 h2
    · exact ⟨a, List.mem_cons_self _ _, h1, by simp⟩
    · obtain ⟨o, ho, hs, hnm⟩ := ih (List.nodup_cons.mp hnd).2 hb
      refine ⟨o, List.mem_cons_of_mem _ ho, hs, ?_⟩
      intro hmem
      rcases List.mem_cons.mp hmem with rfl | hmem'
      · exact (List.nodup_cons.mp hnd).1 ho
      · exact hnm hmem'
    · obtain ⟨o, ho, hs, hnm⟩ := ih (List.nodup_cons.mp hnd).2 hb
      exact ⟨o, List.mem_cons_of_mem _ ho, hs, hnm⟩

theorem mem_insertMinFrame_kept (sel : List Frame) (f o : Frame) :
    (o ∈ sel.filter (fun x => decide (x ∉ (frameScan f sel).2)) ↔
      o ∈ sel ∧ o ∉ (frameScan f sel).2) := by
  rw [List.mem_filter, decide_eq_true_eq]

theorem insertMinFrame_mem (sel : List Frame) (f g : Frame)
    (hg : g ∈ insertMinFrame sel f) : g ∈ sel ∨ g = f := by
  unfold insertMinFrame at hg
  split_ifs at hg with hb
  · exact Or.inl ((mem_insertMinFrame_kept sel f g).mp hg).1
  · rcases List.mem_append.mp hg with hg' | hg'
    · exact Or.inl ((mem_insertMinFrame_kept sel f g).mp hg').1
    · exact Or.inr (List.mem_singleton.mp hg')

theorem insertMinFrame_cover_old (sel : List Frame) (f : Frame)
    (hnd : sel.Nodup) :
    ∀ g ∈ sel, ∃ h ∈ insertMinFrame sel f, g.domain ⊆ h.domain := by
  intro g hg
  unfold insertMinFrame
  split_ifs with hb
  · by_cases hr : g ∈ (frameScan f sel).2
    · obtain ⟨o, ho, hfo, honm⟩ := frameScan_true f sel hnd hb
      refine ⟨o, (mem_insertMinFrame_kept sel f o).mpr ⟨ho, honm⟩, ?_⟩
      exact ((frameScan_redund_mem f sel g hr).2.trans hfo)
    · exact ⟨g, (mem_insertMinFrame_kept sel f g).mpr ⟨hg, hr⟩,
        subset_rfl⟩
  · by_cases hr : g ∈ (frameScan f sel).2
    · exact ⟨f, List.mem_append.mpr (Or.inr (List.mem_singleton_self f)),
        (frameScan_redund_mem f sel g hr).2⟩
    · exact ⟨g, List.mem_append.mpr
        (Or.inl ((mem_insertMinFrame_kept sel f g).mpr ⟨hg, hr⟩)),
        subset_rfl⟩

theorem insertMinFrame_cover_new (sel : List Frame) (f : Frame)
    (hnd : sel.Nodup) :
    ∃ h ∈ insertMinFrame sel f, f.domain ⊆ h.domain := by
  unfold insertMinFrame
  split_ifs with hb
  · obtain ⟨o, ho, hfo, honm⟩ := frameScan_true f sel hnd hb
    exact ⟨o, (mem_insertMinFrame_kept sel f o).mpr ⟨ho, honm⟩, hfo⟩
  · exact ⟨f, List.mem_append.mpr (Or.inr (List.mem_singleton_self f)),
      subset_rfl⟩

theorem insertMinFrame_nodup (sel : List Frame) (f : Frame)
    (hnd : sel.Nodup) : (insertMinFrame sel f).Nodup := by
  unfold insertMinFrame
  split_ifs with hb
  · exact hnd.filter _
  · refine List.Nodup.append (hnd.filter _) (List.nodup_singleton f) ?_
    intro x hx hx'
    rw [List.mem_singleton] at hx'
    rw [hx'] at hx
    have hxm := ((mem_insertMinFrame_kept sel f f).mp hx).1
    exact (frameScan_false f sel (Bool.not_eq_true _ ▸ hb) f hxm).1 subset_rfl

theorem insertMinFrame_incomp (sel : List Frame) (f : Frame)
    (hinc : Incomp sel) :
    Incomp (insertMinFrame sel f) := by
  intro g hg h hh hne
  unfold insertMinFrame at hg hh
  split_ifs at hg hh with hb
  · exact hinc g ((mem_insertMinFrame_kept sel f g).mp hg).1
      h ((mem_insertMinFrame_kept sel f h).mp hh).1 hne
  · rcases List.mem_append.mp hg with hg' | hg' <;>
      rcases List.mem_append.mp hh with hh' | hh'
    · exact hinc g ((mem_insertMinFrame_kept sel f g).mp hg').1
        h ((mem_insertMinFrame_kept sel f h).mp hh').1 hne
    · obtain ⟨hgm, hgr⟩ := (mem_insertMinFrame_kept sel f g).mp hg'
      rw [List.mem_singleton] at hh'
      rw [hh']
      intro hsub
      exact hgr ((frameScan_false f sel (Bool.not_eq_true _ ▸ hb) g hgm).2 hsub)
    · obtain ⟨hhm, _⟩ := (mem_insertMinFrame_kept sel f h).mp hh'
      rw [List.mem_singleton] at hg'
      rw [hg']
      exact (frameScan_false f sel (Bool.not_eq_true _ ▸ hb) h hhm).1
    · rw [List.mem_singleton] at hg' hh'
      exact absurd (hg'.trans hh'.symm) hne

theorem foldl_insertMinFrame_mem (frameList sel : List Frame) (g : Frame)
    (hg : g ∈ frameList.foldl insertMinFrame sel) :
    g ∈ sel ∨ g ∈ frameList := by
  induction frameList generalizing sel with
  | nil => exact Or.inl hg
  | cons f fs ih =>
    rcases ih (insertMinFrame sel f) hg with hg' | hg'
    · rcases insertMinFrame_mem sel f g hg' with hm | hm
      · exact Or.inl hm
      · exact Or.inr (hm ▸ List.mem_cons_self _ _)
    · exact Or.inr (List.mem_cons_of_mem _ hg')

theorem foldl_insertMinFrame_nodup_incomp (frameList sel : List Frame)
    (hnd : sel.Nodup) (hinc : Incomp sel) :
    (frameList.foldl insertMinFrame sel).Nodup ∧
      Incomp (frameList.foldl insertMinFrame sel) := by
  induction frameList generalizing sel with
  | nil => exact ⟨hnd, hinc⟩
  | cons f fs ih =>
    exact ih (insertMinFrame sel f) (insertMinFrame_nodup sel f hnd)
      (insertMinFrame_incomp sel f hinc)

theorem foldl_insertMinFrame_cover (frameList sel : List Frame)
    (hnd : sel.Nodup) :
    (∀ g ∈ sel, ∃ h ∈ frameList.foldl insertMinFrame sel,
        g.domain ⊆ h.domain) ∧
    (∀ f ∈ frameList, ∃ h ∈ frameList.foldl insertMinFrame sel,
        f.domain ⊆ h.domain) := by
  induction frameList generalizing sel with
  | nil =>
    refine ⟨fun g hg => ⟨g, hg, subset_rfl⟩, fun f hf => absurd hf (by simp)⟩
  | cons f fs ih =>
    obtain ⟨ih1, ih2⟩ := ih (insertMinFrame sel f) (insertMinFrame_nodup sel f hnd)
    refine ⟨fun g hg => ?_, fun x hx => ?_⟩
    · obtain ⟨h1, hm1, hs1⟩ := insertMinFrame_cover_old sel f hnd g hg
      obtain ⟨h2, hm2, hs2⟩ := ih1 h1 hm1
      exact ⟨h2, hm2, hs1.trans hs2⟩
    · rcases List.mem_cons.mp hx with rfl | hx'
      · obtain ⟨h1, hm1, hs1⟩ := insertMinFrame_cover_new sel x hnd
        obtain ⟨h2, hm2, hs2⟩ := ih1 h1 hm1
        exact ⟨h2, hm2, hs1.trans hs2⟩
      · exact ih2 x hx'

/-- C4: the frame selector returns a subset of the input frames whose
domains cover the union of all input domains and which is minimal under
pairwise subset containment (no returned frame's domain is contained in
another returned frame's domain); in particular on two frames with
strictly nested domains only the larger-domain frame is returned, in
either input order, and two frames with incomparable domains are both
returned. -/
theorem get_min_frames_spec :
    (∀ frameList : List Frame,
      (∀ g ∈ getMinFrames frameList, g ∈ frameList) ∧
      (∀ f ∈ frameList, ∃ g ∈ getMinFrames frameList, f.domain ⊆ g.domain) ∧
      (∀ x : ℕ, (∃ f ∈ frameList, x ∈ f.domain) ↔
        (∃ g ∈ getMinFrames frameList, x ∈ g.domain)) ∧
      (∀ g ∈ getMinFrames frameList, ∀ h ∈ getMinFrames frameList,
        g ≠ h → ¬ g.domain ⊆ h.domain)) ∧
    (∀ a b : Frame, a.domain ⊂ b.domain →
      getMinFrames [a, b] = [b] ∧ getMinFrames [b, a] = [b]) ∧
    (∀ a b : Frame, ¬ a.domain ⊆ b.domain → ¬ b.domain ⊆ a.domain →
      a ∈ getMinFrames [a, b] ∧ b ∈ getMinFrames [a, b]) := by
  refine ⟨fun frameList => ?_, fun a b hab => ?_, fun a b hab hba => ?_⟩
  · have hnd : ([] : List Frame).Nodup := List.nodup_nil
    have hinc : Incomp ([] : List Frame) := fun g hg => absurd hg (by simp)
    obtain ⟨hc1, hc2⟩ := foldl_insertMinFrame_cover frameList [] hnd
    obtain ⟨_, hincf⟩ := foldl_insertMinFrame_nodup_incomp frameList [] hnd hinc
    refine ⟨fun g hg => ?_, hc2, fun x => ⟨fun hx => ?_, fun hx => ?_⟩, hincf⟩
    · rcases foldl_insertMinFrame_mem frameList [] g hg with hm | hm
      · exact absurd hm (by simp)
      · exact hm
    · obtain ⟨f, hf, hxf⟩ := hx
      obtain ⟨g, hgm, hgs⟩ := hc2 f hf
      exact ⟨g, hgm, hgs hxf⟩
    · obtain ⟨g, hgm, hgx⟩ := hx
      rcases foldl_insertMinFrame_mem frameList [] g hgm with hm | hm
      · exact absurd hm (by simp)
      · exact ⟨g, hm, hgx⟩
  · obtain ⟨hsub, hnsub⟩ := hab
    have hba : ¬ b.domain ⊆ a.domain := hnsub
    constructor
    · show insertMinFrame (insertMinFrame [] a) b = [b]
      have h1 : insertMinFrame [] a = [a] := rfl
      rw [h1]
      simp [insertMinFrame, frameScan, hba, hsub]
    · show insertMinFrame (insertMinFrame [] b) a = [b]
      have h1 : insertMinFrame [] b = [b] := rfl
      rw [h1]
      simp [insertMinFrame, frameScan, hsub]
  · constructor
    · show a ∈ insertMinFrame (insertMinFrame [] a) b
      have h1 : insertMinFrame [] a = [a] := rfl
      rw [h1]
      simp [insertMinFrame, frameScan, hba, hab]
    · show b ∈ insertMinFrame (insertMinFrame [] a) b
      have h1 : insertMinFrame [] a = [a] := rfl
      rw [h1]
      simp [insertMinFrame, frameScan, hba, hab]

theorem get_min_frames_spec_witness :
    (Frame.mk 0 {0}).domain ⊂ (Frame.mk 1 {0, 1}).domain ∧
    getMinFrames [Frame.mk 0 {0}, Frame.mk 1 {0, 1}] = [Frame.mk 1 {0, 1}] ∧
    getMinFrames [Frame.mk 1 {0, 1}, Frame.mk 0 {0}] = [Frame.mk 1 {0, 1}] := by
  have h : (Frame.mk 0 {0}).domain ⊂ (Frame.mk 1 {0, 1}).domain := by decide
  have h2 := (get_min_frames_spec.2.1 (Frame.mk 0 {0}) (Frame.mk 1 {0, 1}) h)
  exact ⟨h, h2.1, h2.2⟩

theorem getD_map_range {α : Type} (f : ℕ → α) (m k : ℕ) (hk : k < m) (d : α) :
    ((List.range m).map f).getD k d = f k := by
  rw [List.getD_eq_getElem _ _ (by simpa using hk)]
  simp

theorem buildPowers_eq {R : Type} [CommRing R] {n : ℕ}
    (M : Matrix (Fin n) (Fin n) R) (d : ℕ) :
    buildPowers M d = (List.range (d + 1)).map (fun k => M ^ k) := by
  induction d with
  | zero => simp [buildPowers, List.range_succ]
  | succ d ih =>
    have hstep : buildPowers M (d + 1) =
        buildPowers M d ++ [M * (buildPowers M d).getD d 1] := rfl
    rw [hstep, ih, getD_map_range _ _ _ (Nat.lt_succ_self d),
      show List.range (d + 1 + 1) = List.range (d + 1) ++ [d + 1] from
        List.range_succ (d + 1), List.map_append]
    simp [pow_succ']

/-- C8: the polynomial evaluator equals the sum of the coefficients times
the matrix powers; the iteratively built power list (one multiplication per
degree, each entry reusing the previous one) is exactly the list of powers
of the matrix; and a length-one coefficient list yields the constant
coefficient times the identity matrix, for every input matrix. -/
theorem insert_in_polynomial_spec {R : Type} [CommRing R] {n : ℕ} :
    (∀ (coeffList : List R) (M : Matrix (Fin n) (Fin n) R),
      insertInPolynomial coeffList M =
        ∑ k ∈ Finset.range coeffList.length, coeffList.getD k 0 • M ^ k) ∧
    (∀ (M : Matrix (Fin n) (Fin n) R) (d : ℕ),
      buildPowers M d = (List.range (d + 1)).map (fun k => M ^ k)) ∧
    (∀ (c0 : R) (M : Matrix (Fin n) (Fin n) R),
      insertInPolynomial [c0] M = c0 • (1 : Matrix (Fin n) (Fin n) R)) := by
  have hmain : ∀ (coeffList : List R) (M : Matrix (Fin n) (Fin n) R),
      insertInPolynomial coeffList M =
        ∑ k ∈ Finset.range coeffList.length, coeffList.getD k 0 • M ^ k := by
    intro coeffList M
    unfold insertInPolynomial
    refine Finset.sum_congr rfl (fun k hk => ?_)
    have hk' : k < coeffList.length := Finset.mem_range.mp hk
    rw [buildPowers_eq, getD_map_range _ _ _ (by omega)]
  refine ⟨hmain, buildPowers_eq, fun c0 M => ?_⟩
  rw [hmain [c0] M]
  simp

/-- C9: the matrix normalizer multiplies every entry of the curvature
matrix by `1/(2*pi)` for a Pfaffian class and by `1/(2*pi*i)` for an
additive or multiplicative (indeed any non-Pfaffian) class; the result has
the same shape by typing, and the input matrix is left unmodified since the
function is pure. -/
theorem normalize_matrix_spec (n : ℕ) (classType : String)
    (M : Matrix (Fin n) (Fin n) ℂ) (i j : Fin n) :
    normalizeMatrix ((Real.pi : ℝ) : ℂ) Complex.I classType M i j =
      (if classType = "Pfaffian" then 1 / (2 * ((Real.pi : ℝ) : ℂ))
       else 1 / (2 * ((Real.pi : ℝ) : ℂ) * Complex.I)) * M i j := by
  by_cases h : classType = "Pfaffian"
  · show ((if classType ≠ "Pfaffian" then
        1 / (2 * ((Real.pi : ℝ) : ℂ)) / Complex.I
      else 1 / (2 * ((Real.pi : ℝ) : ℂ))) • M) i j = _
    rw [if_neg (not_not_intro h), if_pos h, Matrix.smul_apply, smul_eq_mul]
  · show ((if classType ≠ "Pfaffian" then
        1 / (2 * ((Real.pi : ℝ) : ℂ)) / Complex.I
      else 1 / (2 * ((Real.pi : ℝ) : ℂ))) • M) i j = _
    rw [if_pos h, if_neg h, div_div, Matrix.smul_apply, smul_eq_mul]

theorem computeForm_comps {R : Type} [Field R] (piV IV : R) (cc : CharClass)
    (con : Connection R)
    (cm : List (Frame × Matrix (Fin cc.rank) (Fin cc.rank) R)) :
    (computeForm piV IV cc con cm).comps =
      buildComps cc con.name con.latexName (List.range (cc.baseDim + 1))
        (computeForm piV IV cc con cm).name
        (computeForm piV IV cc con cm).latexName := rfl

theorem getForm_badkind {R : Type} [Field R] (piV IV : R) (cc : CharClass)
    (cache : List (ℕ × MixedForm R)) (con : Connection R) (cmatrices)
    (hk : ¬ (con.kind = ConnKind.affine ∨ con.kind = ConnKind.bundle)) :
    getForm piV IV cc cache con cmatrices =
      (Except.error (SageError.typeError
        ("argument must be an affine connection on the manifold or bundle connection on the vector bundle")),
       cache) := by
  unfold getForm
  rw [if_pos hk]

theorem getForm_cached {R : Type} [Field R] (piV IV : R) (cc : CharClass)
    (cache : List (ℕ × MixedForm R)) (con : Connection R) (cmatrices)
    (res : MixedForm R)
    (hk : con.kind = ConnKind.affine ∨ con.kind = ConnKind.bundle)
    (hlk : lookupMF cache con.id = some res) :
    getForm piV IV cc cache con cmatrices = (Except.ok res, cache) := by
  unfold getForm
  rw [if_neg (not_not_intro hk), hlk]

theorem getForm_fresh_some {R : Type} [Field R] (piV IV : R) (cc : CharClass)
    (cache : List (ℕ × MixedForm R)) (con : Connection R)
    (cm : List (Frame × Matrix (Fin cc.rank) (Fin cc.rank) R))
    (hk : con.kind = ConnKind.affine ∨ con.kind = ConnKind.bundle)
    (hlk : lookupMF cache con.id = none) :
    getForm piV IV cc cache con (some cm) =
      (Except.ok (computeForm piV IV cc con cm),
       (con.id, computeForm piV IV cc con cm) :: cache) := by
  unfold getForm
  rw [if_neg (not_not_intro hk), hlk]

theorem getForm_pfaffian_none {R : Type} [Field R] (piV IV : R)
    (cc : CharClass) (cache : List (ℕ × MixedForm R)) (con : Connection R)
    (hk : con.kind = ConnKind.affine ∨ con.kind = ConnKind.bundle)
    (hlk : lookupMF cache con.id = none)
    (hpf : cc.classType = "Pfaffian") :
    getForm piV IV cc cache con none =
      (Except.error (SageError.notImplementedError
        ("At this stage, Pfaffian forms cannot be derived from (metric) connections. Please use the argument cmatrices to insert a dictionary of skew-symmetric curvature matrices by hand, instead.")),
       cache) := by
  unfold getForm
  rw [if_neg (not_not_intro hk), hlk]
  simp only [hpf, if_true, reduceIte]

theorem getForm_fresh_none {R : Type} [Field R] (piV IV : R)
    (cc : CharClass) (cache : List (ℕ × MixedForm R)) (con : Connection R)
    (hk : con.kind = ConnKind.affine ∨ con.kind = ConnKind.bundle)
    (hlk : lookupMF cache con.id = none)
    (hpf : ¬ cc.classType = "Pfaffian") :
    getForm piV IV cc cache con none =
      (Except.ok (computeForm piV IV cc con (derivedCms cc con)),
       (con.id, computeForm piV IV cc con (derivedCms cc con)) :: cache) := by
  unfold getForm
  rw [if_neg (not_not_intro hk), hlk]
  simp only [hpf, if_false, reduceIte]

theorem getForm_fresh_inv {R : Type} [Field R] (piV IV : R) (cc : CharClass)
    (cache cache' : List (ℕ × MixedForm R)) (con : Connection R) (cmatrices)
    (res : MixedForm R)
    (hfresh : lookupMF cache con.id = none)
    (h : getForm piV IV cc cache con cmatrices = (Except.ok res, cache')) :
    ∃ cm, res = computeForm piV IV cc con cm ∧
      cache' = (con.id, res) :: cache := by
  by_cases hk : con.kind = ConnKind.affine ∨ con.kind = ConnKind.bundle
  · cases cmatrices with
    | some cm =>
      rw [getForm_fresh_some piV IV cc cache con cm hk hfresh] at h
      obtain ⟨h1, h2⟩ := Prod.mk.injEq .. ▸ h
      injection h1 with h1'
      exact ⟨cm, h1'.symm, by rw [← h2, h1']⟩
    | none =>
      by_cases hpf : cc.classType = "Pfaffian"
      · rw [getForm_pfaffian_none piV IV cc cache con hk hfresh hpf] at h
        obtain ⟨h1, _⟩ := Prod.mk.injEq .. ▸ h
        exact Except.noConfusion h1
      · rw [getForm_fresh_none piV IV cc cache con hk hfresh hpf] at h
        obtain ⟨h1, h2⟩ := Prod.mk.injEq .. ▸ h
        injection h1 with h1'
        exact ⟨derivedCms cc con, h1'.symm, by rw [← h2, h1']⟩
  · rw [getForm_badkind piV IV cc cache con cmatrices hk] at h
    obtain ⟨h1, _⟩ := Prod.mk.injEq .. ▸ h
    exact Except.noConfusion h1

theorem getForm_cache_extends {R : Type} [Field R] (piV IV : R)
    (cc : CharClass) (s : List (ℕ × MixedForm R)) (con2 : Connection R)
    (cmatrices2) :
    (getForm piV IV cc s con2 cmatrices2).2 = s ∨
    (lookupMF s con2.id = none ∧ ∃ r,
      (getForm piV IV cc s con2 cmatrices2).2 = (con2.id, r) :: s) := by
  by_cases hk : con2.kind = ConnKind.affine ∨ con2.kind = ConnKind.bundle
  · cases hlk : lookupMF s con2.id with
    | some r =>
      rw [getForm_cached piV IV cc s con2 cmatrices2 r hk hlk]
      exact Or.inl rfl
    | none =>
      cases cmatrices2 with
      | some cm =>
        rw [getForm_fresh_some piV IV cc s con2 cm hk hlk]
        exact Or.inr ⟨rfl, _, rfl⟩
      | none =>
        by_cases hpf : cc.classType = "Pfaffian"
        · rw [getForm_pfaffian_none piV IV cc s con2 hk hlk hpf]
          exact Or.inl rfl
        · rw [getForm_fresh_none piV IV cc s con2 hk hlk hpf]
          exact Or.inr ⟨rfl, _, rfl⟩
  · rw [getForm_badkind piV IV cc s con2 cmatrices2 hk]
    exact Or.inl rfl

/-- C2: once `get_form` has computed and cached a result for an accepted
connection, the cache maps the connection's identity to that result; any
later call with the same connection (whatever curvature matrices are then
passed) returns exactly the cached object with the cache unchanged, taking
the cache-hit branch that performs no recomputation; and no other
`get_form` call ever removes or overwrites the entry. -/
theorem get_form_idempotent {R : Type} [Field R] (piV IV : R)
    (cc : CharClass) (cache cache' : List (ℕ × MixedForm R))
    (con : Connection R) (cmatrices) (res : MixedForm R)
    (hk : con.kind = ConnKind.affine ∨ con.kind = ConnKind.bundle)
    (h : getForm piV IV cc cache con cmatrices = (Except.ok res, cache')) :
    lookupMF cache' con.id = some res ∧
    (∀ (s : List (ℕ × MixedForm R)) cmatrices2,
      lookupMF s con.id = some res →
      getForm piV IV cc s con cmatrices2 = (Except.ok res, s)) ∧
    (∀ (s : List (ℕ × MixedForm R)) (con2 : Connection R) cmatrices2,
      lookupMF s con.id = some res →
      lookupMF (getForm piV IV cc s con2 cmatrices2).2 con.id = some res) := by
  refine ⟨?_, fun s cmatrices2 hs =>
    getForm_cached piV IV cc s con cmatrices2 res hk hs,
    fun s con2 cmatrices2 hs => ?_⟩
  · cases hlk : lookupMF cache con.id with
    | some r =>
      rw [getForm_cached piV IV cc cache con cmatrices r hk hlk] at h
      obtain ⟨h1, h2⟩ := Prod.mk.injEq .. ▸ h
      injection h1 with h1'
      rw [← h2, ← h1']
      exact hlk
    | none =>
      obtain ⟨cm, -, rfl⟩ :=
        getForm_fresh_inv piV IV cc cache cache' con cmatrices res hlk h
      show (if con.id = con.id then some res else lookupMF cache con.id) =
        some res
      rw [if_pos rfl]
  · rcases getForm_cache_extends piV IV cc s con2 cmatrices2 with
      he | ⟨hnone, r, he⟩
    · rw [he]
      exact hs
    · rw [he]
      show (if con2.id = con.id then some r else lookupMF s con.id) = some res
      by_cases hid : con2.id = con.id
      · rw [hid] at hnone
        rw [hnone] at hs
        exact Option.noConfusion hs
      · rw [if_neg hid]
        exact hs

theorem get_form_idempotent_witness :
    (conA.kind = ConnKind.affine ∨ conA.kind = ConnKind.bundle) ∧
    getForm (1 : ℚ) 1 ccOdd [] conA (some []) =
      (Except.ok mfOddW, [(conA.id, mfOddW)]) ∧
    lookupMF [(conA.id, mfOddW)] conA.id = some mfOddW ∧
    getForm (1 : ℚ) 1 ccOdd [(conA.id, mfOddW)] conA (some []) =
      (Except.ok mfOddW, [(conA.id, mfOddW)]) := by
  have hk : conA.kind = ConnKind.affine ∨ conA.kind = ConnKind.bundle :=
    Or.inl rfl
  have h : getForm (1 : ℚ) 1 ccOdd [] conA (some []) =
      (Except.ok mfOddW, [(conA.id, mfOddW)]) := rfl
  obtain ⟨h1, h2, -⟩ := get_form_idempotent 1 1 ccOdd [] [(conA.id, mfOddW)]
    conA (some []) mfOddW hk h
  exact ⟨hk, h, h1, h2 [(conA.id, mfOddW)] (some []) h1⟩

theorem buildComps_length (cc : CharClass) (conN conL : Option String) :
    ∀ (ks : List ℕ) (curN curL : Option String),
      (buildComps cc conN conL ks curN curL).length = ks.length := by
  intro ks
  induction ks with
  | nil =>
    intro curN curL
    rfl
  | cons k ks ih =>
    intro curN curL
    unfold buildComps
    split_ifs
    · simp [ih]
    · simp [ih]

theorem buildComps_zero_mark (cc : CharClass) (conN conL : Option String) :
    ∀ (ks : List ℕ) (curN curL : Option String) (i : ℕ), i < ks.length →
      (ks.getD i 0 % degDistOf cc ≠ 0 ∨
        (cc.classType = "Pfaffian" ∧ ks.getD i 0 = 0)) →
      ((buildComps cc conN conL ks curN curL).getD i defaultComp).is_zero =
        true := by
  intro ks
  induction ks with
  | nil =>
    intro curN curL i hi
    simp at hi
  | cons k ks ih =>
    intro curN curL i hi hcond
    cases i with
    | zero =>
      simp only [List.getD_cons_zero] at hcond
      unfold buildComps
      rw [if_pos hcond, List.getD_cons_zero]
    | succ i =>
      simp only [List.getD_cons_succ] at hcond
      unfold buildComps
      split_ifs
      · simp only [List.getD_cons_succ]
        exact ih _ _ i (Nat.lt_of_succ_lt_succ hi) hcond
      · simp only [List.getD_cons_succ]
        exact ih _ _ i (Nat.lt_of_succ_lt_succ hi) hcond

theorem getD_range (m k : ℕ) (hk : k < m) (d : ℕ) :
    (List.range m).getD k d = k := by
  rw [List.getD_eq_getElem _ _ (by simpa using hk)]
  simp

theorem degDistOf_eq_claimStride (vbundle : VectorBundle) (func : ℕ → ℚ)
    (classType : String) (nm lm : Option String) (cc : CharClass)
    (h : mkCharClass vbundle func classType nm lm = Except.ok cc) :
    degDistOf cc = claimStride cc := by
  unfold mkCharClass at h
  split_ifs at h with h1 h2 h3
  injection h with h4
  subst h4
  by_cases hpf : classType = "Pfaffian"
  · simp [degDistOf, claimStride, hpf]
  · cases hft : vbundle.fieldT with
    | neither => exact absurd hft h1
    | real => simp [degDistOf, claimStride, hpf, hft]
    | complex => simp [degDistOf, claimStride, hpf, hft]

/-- C3: every mixed form freshly assembled by `get_form` for a
constructible class has one homogeneous component per degree 0..dim; each
component whose degree is not a multiple of the type-dependent stride (2
for a complex bundle, 4 for a real non-Pfaffian class, the rank for a
Pfaffian class) is marked identically zero, and for a Pfaffian class the
degree-0 component is marked zero as well. -/
theorem get_form_degree_bookkeeping {R : Type} [Field R] (piV IV : R)
    (vbundle : VectorBundle) (func : ℕ → ℚ) (classType : String)
    (nm lm : Option String) (cc : CharClass)
    (cache cache' : List (ℕ × MixedForm R)) (con : Connection R)
    (cmatrices) (res : MixedForm R)
    (hmk : mkCharClass vbundle func classType nm lm = Except.ok cc)
    (hfresh : lookupMF cache con.id = none)
    (h : getForm piV IV cc cache con cmatrices = (Except.ok res, cache')) :
    res.comps.length = cc.baseDim + 1 ∧
    (∀ k, k < cc.baseDim + 1 → ¬ claimStride cc ∣ k →
      (res.comps.getD k defaultComp).is_zero = true) ∧
    (cc.classType = "Pfaffian" →
      (res.comps.getD 0 defaultComp).is_zero = true) := by
  obtain ⟨cm, rfl, -⟩ :=
    getForm_fresh_inv piV IV cc cache cache' con cmatrices res hfresh h
  rw [computeForm_comps]
  refine ⟨?_, fun k hk hdvd => ?_, fun hpf => ?_⟩
  · rw [buildComps_length, List.length_range]
  · apply buildComps_zero_mark
    · rw [List.length_range]
      exact hk
    · left
      rw [getD_range _ _ hk,
        degDistOf_eq_claimStride vbundle func classType nm lm cc hmk]
      intro hmod
      exact hdvd ((Nat.dvd_iff_mod_eq_zero).mpr hmod)
  · apply buildComps_zero_mark
    · rw [List.length_range]
      exact Nat.succ_pos _
    · right
      exact ⟨hpf, getD_range _ _ (Nat.succ_pos _) _⟩

theorem get_form_degree_bookkeeping_witness :
    mkCharClass vbW funcW "multiplicative" (some ("c")) none =
      Except.ok ccW ∧
    lookupMF ([] : List (ℕ × MixedForm ℚ)) conA.id = none ∧
    getForm (1 : ℚ) 1 ccW [] conA (some []) =
      (Except.ok mfCW, [(conA.id, mfCW)]) ∧
    ¬ claimStride ccW ∣ 2 ∧
    (mfCW.comps.getD 2 defaultComp).is_zero = true := by
  have hmk : mkCharClass vbW funcW "multiplicative" (some ("c")) none =
      Except.ok ccW := rfl
  have hfresh : lookupMF ([] : List (ℕ × MixedForm ℚ)) conA.id = none := rfl
  have h : getForm (1 : ℚ) 1 ccW [] conA (some []) =
      (Except.ok mfCW, [(conA.id, mfCW)]) := rfl
  have hdvd : ¬ claimStride ccW ∣ 2 := by decide
  refine ⟨hmk, hfresh, h, hdvd, ?_⟩
  exact (get_form_degree_bookkeeping 1 1 vbW funcW "multiplicative"
    (some ("c")) none ccW [] [(conA.id, mfCW)] conA (some []) mfCW
    hmk hfresh h).2.1 2 (by decide) hdvd

/-- C7: `get_form` returns a TypeError when its connection argument is
neither an affine nor a bundle connection, and a NotImplementedError when
the class is Pfaffian, no curvature matrices are supplied and the
connection has no cached result; in both cases the call returns the error
immediately with no partial result (the error constructor carries no form)
and the per-connection cache is returned unchanged. -/
theorem get_form_errors {R : Type} [Field R] (piV IV : R) (cc : CharClass)
    (cache : List (ℕ × MixedForm R)) (con : Connection R) (cmatrices) :
    (¬ (con.kind = ConnKind.affine ∨ con.kind = ConnKind.bundle) →
      getForm piV IV cc cache con cmatrices =
        (Except.error (SageError.typeError
          ("argument must be an affine connection on the manifold or bundle connection on the vector bundle")),
         cache)) ∧
    ((con.kind = ConnKind.affine ∨ con.kind = ConnKind.bundle) →
      cc.classType = "Pfaffian" → lookupMF cache con.id = none →
      getForm piV IV cc cache con none =
        (Except.error (SageError.notImplementedError
          ("At this stage, Pfaffian forms cannot be derived from (metric) connections. Please use the argument cmatrices to insert a dictionary of skew-symmetric curvature matrices by hand, instead.")),
         cache)) :=
  ⟨fun hk => getForm_badkind piV IV cc cache con cmatrices hk,
   fun hk hpf hfresh => getForm_pfaffian_none piV IV cc cache con hk hfresh hpf⟩

theorem get_form_errors_witness :
    ¬ (conBad.kind = ConnKind.affine ∨ conBad.kind = ConnKind.bundle) ∧
    getForm (1 : ℚ) 1 ccOdd [] conBad (some []) =
      (Except.error (SageError.typeError
        ("argument must be an affine connection on the manifold or bundle connection on the vector bundle")),
       []) ∧
    (conA.kind = ConnKind.affine ∨ conA.kind = ConnKind.bundle) ∧
    ccOdd.classType = "Pfaffian" ∧
    lookupMF ([] : List (ℕ × MixedForm ℚ)) conA.id = none ∧
    getForm (1 : ℚ) 1 ccOdd [] conA none =
      (Except.error (SageError.notImplementedError
        ("At this stage, Pfaffian forms cannot be derived from (metric) connections. Please use the argument cmatrices to insert a dictionary of skew-symmetric curvature matrices by hand, instead.")),
       []) := by
  have hbad : ¬ (conBad.kind = ConnKind.affine ∨
      conBad.kind = ConnKind.bundle) := by decide
  have hk : conA.kind = ConnKind.affine ∨ conA.kind = ConnKind.bundle :=
    Or.inl rfl
  refine ⟨hbad, (get_form_errors (1 : ℚ) 1 ccOdd [] conBad (some [])).1 hbad,
    hk, rfl, rfl, (get_form_errors (1 : ℚ) 1 ccOdd [] conA none).2 hk rfl rfl⟩

/-- C10: a call on a not-yet-cached accepted connection with an empty
curvature-matrix dictionary counts as supplied matrices: no error is
raised (also for a Pfaffian class, since the theorem places no condition
on the class type), the per-frame loop runs zero times so the resulting
mixed form carries no restrictions, its components carry only the degree
bookkeeping (one component per degree 0..dim), and the form is cached
under the connection and returned. -/
theorem get_form_empty_cmatrices {R : Type} [Field R] (piV IV : R)
    (cc : CharClass) (cache : List (ℕ × MixedForm R)) (con : Connection R)
    (hk : con.kind = ConnKind.affine ∨ con.kind = ConnKind.bundle)
    (hfresh : lookupMF cache con.id = none) :
    getForm piV IV cc cache con (some []) =
      (Except.ok (computeForm piV IV cc con []),
       (con.id, computeForm piV IV cc con []) :: cache) ∧
    (computeForm piV IV cc con []).restrictions = [] ∧
    (computeForm piV IV cc con []).comps.length = cc.baseDim + 1 ∧
    lookupMF ((con.id, computeForm piV IV cc con []) :: cache) con.id =
      some (computeForm piV IV cc con []) := by
  refine ⟨getForm_fresh_some piV IV cc cache con [] hk hfresh, rfl, ?_, ?_⟩
  · rw [computeForm_comps, buildComps_length, List.length_range]
  · show (if con.id = con.id then some (computeForm piV IV cc con []) else
      lookupMF cache con.id) = some (computeForm piV IV cc con [])
    rw [if_pos rfl]

theorem get_form_empty_cmatrices_witness :
    (conA.kind = ConnKind.affine ∨ conA.kind = ConnKind.bundle) ∧
    ccOdd.classType = "Pfaffian" ∧
    lookupMF ([] : List (ℕ × MixedForm ℚ)) conA.id = none ∧
    getForm (1 : ℚ) 1 ccOdd [] conA (some []) =
      (Except.ok (computeForm 1 1 ccOdd conA []),
       (conA.id, computeForm 1 1 ccOdd conA []) :: []) ∧
    (computeForm (1 : ℚ) 1 ccOdd conA []).restrictions = [] := by
  have hk : conA.kind = ConnKind.affine ∨ conA.kind = ConnKind.bundle :=
    Or.inl rfl
  have hfresh : lookupMF ([] : List (ℕ × MixedForm ℚ)) conA.id = none := rfl
  obtain ⟨h1, h2, -⟩ := get_form_empty_cmatrices (1 : ℚ) 1 ccOdd [] conA hk hfresh
  exact ⟨hk, rfl, hfresh, h1, h2⟩

end CharClassModel
